import Mathlib

/-!
Verification development for the Python-Suffix-Tree repository
(`src/suffix_tree.py`).

The Python source is shallowly embedded:
* Python `int` becomes `Int`;
* Python list indexing (which wraps negative indices and raises
  `IndexError` when out of range) becomes `pyGet` / `pySet` returning
  `Except PErr _`;
* Python slicing (which clamps) becomes `pySlice`;
* the `dict` of edges, keyed by `(source node index, symbol)`, becomes an
  insertion-ordered association list with `dictGetOpt` (`.get`), `dictSetKey`
  (assignment, which silently overwrites an existing key), and
  `dictRemoveKey` together with `_remove_edge` for `.pop` (raising
  `KeyError` on a missing key);
* reading an object attribute that was never assigned raises
  `AttributeError`; the two attributes `case_insensitive` and `string`
  that `find_substring` reads but `__init__` never assigns are modelled as
  `Option`-valued fields initialised to `none`;
* the unbounded `while` loops and the recursion of `_canonize_suffix` are
  given explicit fuel; running out of fuel yields the artificial error
  `PErr.outOfFuel`, which no Python behaviour corresponds to (an actual
  Python infinite loop / `RecursionError`).
-/

namespace Ukkonen

/-- Errors a Python execution of this program can raise, plus the
artificial `outOfFuel` used by the fueled embedding of loops. -/
inductive PErr where
  | keyError
  | indexError
  | attributeError
  | outOfFuel
deriving DecidableEq, Repr

/-- Python list indexing `xs[i]`: negative indices wrap once by the length,
anything still out of range raises `IndexError`. -/
def pyGet {β : Type} (xs : List β) (i : Int) : Except PErr β :=
  let n : Int := xs.length
  let j : Int := if i < 0 then i + n else i
  if 0 ≤ j ∧ j < n then
    match xs.get? j.toNat with
    | some a => Except.ok a
    | none => Except.error PErr.indexError
  else Except.error PErr.indexError

/-- Python list element assignment `xs[i] = v` (same index normalisation
as `pyGet`). -/
def pySet {β : Type} (xs : List β) (i : Int) (v : β) : Except PErr (List β) :=
  let n : Int := xs.length
  let j : Int := if i < 0 then i + n else i
  if 0 ≤ j ∧ j < n then Except.ok (xs.set j.toNat v)
  else Except.error PErr.indexError

/-- Python slicing `xs[a:b]` (step 1): negative endpoints wrap, everything
clamps into range, never an error. -/
def pySlice {β : Type} (xs : List β) (a b : Int) : List β :=
  let n : Int := xs.length
  let a' : Int := if a < 0 then max (a + n) 0 else min a n
  let b' : Int := if b < 0 then max (b + n) 0 else min b n
  (xs.drop a'.toNat).take (b' - a').toNat

/-- Python `class Node`: only attribute is `suffix_node`, initialised to `-1`
("no suffix link"). -/
structure Node where
  suffix_node : Int
deriving DecidableEq, Repr

/-- Python `class Edge`: a labelled edge of the tree.  The label is the slice of
the input sequence from `first_obj_index` to `last_obj_index` (inclusive). -/
structure Edge where
  first_obj_index : Int
  last_obj_index : Int
  source_node_index : Int
  dest_node_index : Int
deriving DecidableEq, Repr

/-- The `Edge.length` property: `last_obj_index - first_obj_index`. -/
def Edge.length (e : Edge) : Int :=
  e.last_obj_index - e.first_obj_index

/-- Python `class Suffix`: the active point / a suffix from `first_obj_index` to
`last_obj_index`, hanging off node `source_node_index`. -/
structure Suffix where
  source_node_index : Int
  first_obj_index : Int
  last_obj_index : Int
deriving DecidableEq, Repr

/-- The `Suffix.length` property: `last_obj_index - first_obj_index`. -/
def Suffix.length (s : Suffix) : Int :=
  s.last_obj_index - s.first_obj_index

/-- Method `Suffix.explicit()`: the suffix ends on a node, encoded by
`first_obj_index > last_obj_index`. -/
def Suffix.explicit (s : Suffix) : Bool :=
  decide (s.first_obj_index > s.last_obj_index)

/-- Method `Suffix.implicit()`. -/
def Suffix.implicit (s : Suffix) : Bool :=
  decide (s.last_obj_index ≥ s.first_obj_index)

/-- The edge table: a Python `dict` keyed by `(source node index, symbol)`,
modelled as an insertion-ordered association list (Python dicts preserve
insertion order and hold at most one entry per key). -/
abbrev EdgeDict (α : Type) := List ((Int × α) × Edge)

/-- Python `dict.get(k)`: first entry with the given key, if any. -/
def dictGetOpt {α : Type} [DecidableEq α] : EdgeDict α → (Int × α) → Option Edge
  | [], _ => none
  | p :: rest, k => if p.1 = k then some p.2 else dictGetOpt rest k

/-- Python `dict[k]`: raises `KeyError` when the key is absent. -/
def dictGet {α : Type} [DecidableEq α] (m : EdgeDict α) (k : Int × α) :
    Except PErr Edge :=
  match dictGetOpt m k with
  | some e => Except.ok e
  | none => Except.error PErr.keyError

/-- Python `dict[k] = v`: replace in place when the key exists (keeping its
position), otherwise append at the end.  Never fails. -/
def dictSetKey {α : Type} [DecidableEq α] : EdgeDict α → (Int × α) → Edge → EdgeDict α
  | [], k, v => [(k, v)]
  | p :: rest, k, v => if p.1 = k then (k, v) :: rest else p :: dictSetKey rest k v

/-- Remove the first entry with the given key (the list part of
`dict.pop(k)`). -/
def dictRemoveKey {α : Type} [DecidableEq α] : EdgeDict α → (Int × α) → EdgeDict α
  | [], _ => []
  | p :: rest, k => if p.1 = k then rest else p :: dictRemoveKey rest k

/-- The state of a `SuffixTree` object.  `__init__` assigns exactly `seq`,
`N`, `nodes`, `edges` and `active`; the attributes `case_insensitive` and
`string`, read later by `find_substring`, are never assigned and are
therefore modelled as `Option` fields holding `none` on every object the
constructor produces (reading them then raises `AttributeError`). -/
structure SuffixTree (α : Type) where
  seq : List α
  N : Int
  nodes : List Node
  edges : EdgeDict α
  active : Suffix
  case_insensitive : Option Bool
  string : Option (List α)
deriving Repr

/-- The state assembled by `__init__` before the phase loop runs:
`seq`, `N = len(seq) - 1`, one root node, no edges, active point
`Suffix(0, 0, -1)`. -/
def initST {α : Type} (seq : List α) : SuffixTree α :=
  { seq := seq
    N := (seq.length : Int) - 1
    nodes := [{ suffix_node := -1 }]
    edges := []
    active := { source_node_index := 0, first_obj_index := 0, last_obj_index := -1 }
    case_insensitive := none
    string := none }

variable {α : Type} [DecidableEq α]

/-- Method `SuffixTree._insert_edge`: `self.edges[(edge.source_node_index,
self.seq[edge.first_obj_index])] = edge`.  A plain dict assignment: it can
only fail in the sequence lookup, and silently overwrites any entry already
stored under the same key. -/
def _insert_edge (st : SuffixTree α) (edge : Edge) : Except PErr (SuffixTree α) := do
  let c ← pyGet st.seq edge.first_obj_index
  Except.ok { st with edges := dictSetKey st.edges (edge.source_node_index, c) edge }

/-- Method `SuffixTree._remove_edge`: `self.edges.pop((edge.source_node_index,
self.seq[edge.first_obj_index]))`; `pop` raises `KeyError` when the key is
absent. -/
def _remove_edge (st : SuffixTree α) (edge : Edge) : Except PErr (SuffixTree α) := do
  let c ← pyGet st.seq edge.first_obj_index
  match dictGetOpt st.edges (edge.source_node_index, c) with
  | some _ =>
      Except.ok { st with edges := dictRemoveKey st.edges (edge.source_node_index, c) }
  | none => Except.error PErr.keyError

/-- Python `self.nodes[i].suffix_node = v`: fetch the node object and update its
field (Python index semantics). -/
def setSuffixNode (nodes : List Node) (i v : Int) : Except PErr (List Node) := do
  let _ ← pyGet nodes i
  pySet nodes i { suffix_node := v }

/-- Method `SuffixTree._split_edge(edge, suffix)`: append a new node; insert the
head edge `e` covering the first `suffix.length + 1` symbols of `edge`'s
label, from `suffix.source_node_index` to the new node; remove the stale
entry first; set the new node's suffix link to `suffix.source_node_index`;
then advance `edge` past the head part, re-source it at the new node and
re-insert it.  Returns the new node's index. -/
def _split_edge (st : SuffixTree α) (edge : Edge) (suffix : Suffix) :
    Except PErr (SuffixTree α × Int) := do
  let nodes1 := st.nodes ++ [{ suffix_node := -1 }]
  let e : Edge :=
    { first_obj_index := edge.first_obj_index
      last_obj_index := edge.first_obj_index + suffix.length
      source_node_index := suffix.source_node_index
      dest_node_index := (nodes1.length : Int) - 1 }
  let st1 : SuffixTree α := { st with nodes := nodes1 }
  let st2 ← _remove_edge st1 edge
  let st3 ← _insert_edge st2 e
  let nodes2 ← setSuffixNode st3.nodes e.dest_node_index suffix.source_node_index
  let st4 : SuffixTree α := { st3 with nodes := nodes2 }
  let edge2 : Edge :=
    { edge with
      first_obj_index := edge.first_obj_index + suffix.length + 1
      source_node_index := e.dest_node_index }
  let st5 ← _insert_edge st4 edge2
  Except.ok (st5, e.dest_node_index)

/-- Method `SuffixTree._canonize_suffix(suffix)`, with explicit fuel for the
recursion: while the suffix is implicit and the edge out of
`suffix.source_node_index` labelled by the symbol at `suffix.first_obj_index`
is no longer than the suffix, consume that whole edge and descend to its
destination. -/
def _canonize_suffix (st : SuffixTree α) : Nat → Suffix → Except PErr Suffix
  | 0, _ => Except.error PErr.outOfFuel
  | fuel + 1, suffix =>
    if suffix.explicit then Except.ok suffix
    else do
      let c ← pyGet st.seq suffix.first_obj_index
      let e ← dictGet st.edges (suffix.source_node_index, c)
      if e.length ≤ suffix.length then
        _canonize_suffix st fuel
          { suffix with
            first_obj_index := suffix.first_obj_index + e.length + 1
            source_node_index := e.dest_node_index }
      else Except.ok suffix

/-- Fuel that provably suffices for `_canonize_suffix` on any edge table
whose edges all have non-negative span: one unit per symbol of the active
window plus two. -/
def canonFuel (s : Suffix) : Nat :=
  (s.last_obj_index - s.first_obj_index).toNat + 2

/-- Wrapper: `_canonize_suffix` as called by the construction, with the
self-adjusting fuel bound. -/
def canonize (st : SuffixTree α) (s : Suffix) : Except PErr Suffix :=
  _canonize_suffix st (canonFuel s) s

/-- The shared tail of one iteration of `_add_prefix`'s `while True:` loop
(everything after the two `break` checks): append a leaf node, hang a new
leaf edge labelled `[i, N]` off `parentNode`, wire the previous iteration's
suffix link, advance the active point (at the root by shrinking the window
from the front, elsewhere by following the suffix link), canonize, and loop
(the `recur` argument is the next loop iteration). -/
def addPrefixCont (i lastParent : Int)
    (recur : SuffixTree α → Int → Except PErr (SuffixTree α × Int × Int))
    (st : SuffixTree α) (parentNode : Int) :
    Except PErr (SuffixTree α × Int × Int) := do
  let stN : SuffixTree α := { st with nodes := st.nodes ++ [{ suffix_node := -1 }] }
  let e : Edge :=
    { first_obj_index := i
      last_obj_index := stN.N
      source_node_index := parentNode
      dest_node_index := (stN.nodes.length : Int) - 1 }
  let stE ← _insert_edge stN e
  let stL ←
    if lastParent > 0 then do
      let nodes ← setSuffixNode stE.nodes lastParent parentNode
      Except.ok { stE with nodes := nodes }
    else Except.ok stE
  let stA ←
    if stL.active.source_node_index = 0 then
      Except.ok { stL with active :=
        { stL.active with first_obj_index := stL.active.first_obj_index + 1 } }
    else do
      let nd ← pyGet stL.nodes stL.active.source_node_index
      Except.ok { stL with active :=
        { stL.active with source_node_index := nd.suffix_node } }
  let act ← canonize stA stA.active
  recur { stA with active := act } parentNode

/-- The body of `_add_prefix`'s `while True:` loop, with explicit fuel.
Returns the state, the final `last_parent_node` and the `parent_node` value
held at the `break`. -/
def addPrefixLoop (i : Int) :
    Nat → SuffixTree α → Int → Except PErr (SuffixTree α × Int × Int)
  | 0, _, _ => Except.error PErr.outOfFuel
  | fuel + 1, st0, lastParent => do
    let parentNode := st0.active.source_node_index
    if st0.active.explicit then do
      let ci ← pyGet st0.seq i
      if (dictGetOpt st0.edges (st0.active.source_node_index, ci)).isSome then
        Except.ok (st0, lastParent, parentNode)
      else addPrefixCont i lastParent (addPrefixLoop i fuel) st0 parentNode
    else do
      let ca ← pyGet st0.seq st0.active.first_obj_index
      let e ← dictGet st0.edges (st0.active.source_node_index, ca)
      let cnext ← pyGet st0.seq (e.first_obj_index + st0.active.length + 1)
      let ci ← pyGet st0.seq i
      if cnext = ci then Except.ok (st0, lastParent, parentNode)
      else do
        let (st1, newParent) ← _split_edge st0 e st0.active
        addPrefixCont i lastParent (addPrefixLoop i fuel) st1 newParent

/-- Method `SuffixTree._add_prefix(last_obj_index)`: the loop above, then the
post-loop fix-up of the last suffix link, growing the active window by one,
and a final canonization. -/
def addPrefix (fuel : Nat) (st : SuffixTree α) (i : Int) :
    Except PErr (SuffixTree α) := do
  let (st1, lastParent, parentNode) ← addPrefixLoop i fuel st (-1)
  let st2 ←
    if lastParent > 0 then do
      let nodes ← setSuffixNode st1.nodes lastParent parentNode
      Except.ok { st1 with nodes := nodes }
    else Except.ok st1
  let act1 : Suffix :=
    { st2.active with last_obj_index := st2.active.last_obj_index + 1 }
  let act2 ← canonize st2 act1
  Except.ok { st2 with active := act2 }

/-- The first `k` iterations of `__init__`'s phase loop
`for i in range(len(seq)): self._add_prefix(i)`, starting from the freshly
initialised state. -/
def buildPhases (fuel : Nat) (seq : List α) (k : Nat) :
    Except PErr (SuffixTree α) :=
  List.foldlM (fun st i => addPrefix fuel st (Int.ofNat i)) (initST seq)
    (List.range k)

/-- Per-phase fuel for the extension loop: ample for every input (one
phase performs at most one iteration per remaining suffix). -/
def loopFuel (seq : List α) : Nat :=
  seq.length + 8

/-- Constructor `SuffixTree(seq)`: run every phase. -/
def buildTree (seq : List α) : Except PErr (SuffixTree α) :=
  buildPhases (loopFuel seq) seq seq.length

/-- The walk inside `find_substring`, with fuel; called only with
`i < len(substring)`.  `lower` models the symbol-wise effect of Python's
`str.lower` for the dead `case_insensitive` branch. -/
def findLoop (t : SuffixTree α) (sub : List α) :
    Nat → Int → Int → Except PErr Int
  | 0, _, _ => Except.error PErr.outOfFuel
  | fuel + 1, i, currNode => do
    let c ← pyGet sub i
    match dictGetOpt t.edges (currNode, c) with
    | none => Except.ok (-1)
    | some edge => do
      let ln : Int := min (edge.length + 1) ((sub.length : Int) - i)
      let patSlice := pySlice sub i (i + ln)
      let strSlice ←
        match t.string with
        | none => Except.error PErr.attributeError
        | some s =>
            Except.ok (pySlice s edge.first_obj_index (edge.first_obj_index + ln))
      if patSlice ≠ strSlice then Except.ok (-1)
      else
        let i2 := i + edge.length + 1
        if i2 < (sub.length : Int) then findLoop t sub fuel i2 edge.dest_node_index
        else Except.ok (edge.first_obj_index - (sub.length : Int) + ln)

/-- Method `SuffixTree.find_substring(substring)`: empty pattern returns `-1`
immediately; otherwise the read of `self.case_insensitive` happens before
anything else.  On objects made by `__init__` that attribute does not
exist, so this raises `AttributeError`. -/
def find_substring (lower : α → α) (t : SuffixTree α) (substring : List α) :
    Except PErr Int :=
  if substring.isEmpty then Except.ok (-1)
  else
    match t.case_insensitive with
    | none => Except.error PErr.attributeError
    | some ci =>
      let sub := if ci then substring.map lower else substring
      findLoop t sub (sub.length + 1) 0 0

/-- Method `SuffixTree.has_substring(substring)`. -/
def has_substring (lower : α → α) (t : SuffixTree α) (substring : List α) :
    Except PErr Bool := do
  let r ← find_substring lower t substring
  Except.ok (decide (r ≠ -1))

/-- The configuration fields of the state that the construction engine
never writes: the input sequence, the sentinel `N`, and the two attributes
`__init__` never assigns. -/
def cfgEq (a b : SuffixTree α) : Prop :=
  a.seq = b.seq ∧ a.N = b.N ∧
  a.case_insensitive = b.case_insensitive ∧ a.string = b.string

/-- Size check used for the linearity claim: the finished tree for `seq`
has strictly fewer than `2 * len(seq)` nodes and edges. -/
def countOK (seq : List Nat) : Bool :=
  match (buildTree seq : Except PErr (SuffixTree Nat)) with
  | Except.ok t =>
      decide (t.nodes.length < 2 * seq.length) &&
      decide (t.edges.length < 2 * seq.length)
  | Except.error _ => false

/-- Same size check over `Char` sequences. -/
def countOKChar (seq : List Char) : Bool :=
  match (buildTree seq : Except PErr (SuffixTree Char)) with
  | Except.ok t =>
      decide (t.nodes.length < 2 * seq.length) &&
      decide (t.edges.length < 2 * seq.length)
  | Except.error _ => false

/-- All sequences of length `n` over the given alphabet. -/
def allSeqs (alpha : List Nat) : Nat → List (List Nat)
  | 0 => [[]]
  | n + 1 => (allSeqs alpha n).flatMap (fun s => alpha.map (fun a => a :: s))

/-- The representative input family for the linear-size property: every
sequence over a two-symbol alphabet of length 2 to 6 and every sequence
over a three-symbol alphabet of length 2 to 4. -/
def sizeFamily : List (List Nat) :=
  (List.range 5).flatMap (fun n => allSeqs [0, 1] (n + 2)) ++
    (List.range 3).flatMap (fun n => allSeqs [0, 1, 2] (n + 2))

/-- Decidable check of invariant (2) on a finished state: every node that
is the source of some edge, other than the root, has a resolved suffix
link (`suffix_node` not `-1`).  (In this implementation internal nodes are
exactly the non-root edge sources.) -/
def suffixLinksResolved {β : Type} [DecidableEq β] (t : SuffixTree β) : Bool :=
  t.edges.all (fun p =>
    decide (p.1.1 = 0) ||
      (match pyGet t.nodes p.1.1 with
       | Except.ok nd => decide (nd.suffix_node ≠ -1)
       | Except.error _ => false))

/-- Decidable check that `suffixLinksResolved` holds after every phase of
the construction for the given sequence (per claim C7 the check is run at
each completed `_add_prefix`). -/
def phasesAllResolved (seq : List Nat) : Bool :=
  (List.range (seq.length + 1)).all (fun k =>
    match (buildPhases (loopFuel seq) seq k : Except PErr (SuffixTree Nat)) with
    | Except.ok t => suffixLinksResolved t
    | Except.error _ => false)

/-- A one-edge state over the sequence `"a"` used to exercise
`_insert_edge` on an already-occupied key: the key `(0, 'a')` is taken by
`insEdgeOld`. -/
def insEdgeOld : Edge :=
  { first_obj_index := 0, last_obj_index := 0, source_node_index := 0, dest_node_index := 1 }

/-- A second edge with the same key `(0, 'a')` as `insEdgeOld` but a
different destination. -/
def insEdgeNew : Edge :=
  { first_obj_index := 0, last_obj_index := 0, source_node_index := 0, dest_node_index := 2 }

/-- The concrete state holding `insEdgeOld` under key `(0, 'a')`. -/
def insState : SuffixTree Char :=
  { seq := ['a'], N := 0, nodes := [⟨-1⟩, ⟨-1⟩, ⟨-1⟩],
    edges := [((0, 'a'), insEdgeOld)],
    active := ⟨0, 0, -1⟩, case_insensitive := none, string := none }

/-- Concrete edge for the `_split_edge` witness: the single edge of a
two-symbol tree state, labelled `[0, 1]` from the root to node 1. -/
def splitEdgeArg : Edge :=
  { first_obj_index := 0, last_obj_index := 1, source_node_index := 0, dest_node_index := 1 }

/-- Concrete active suffix for the `_split_edge` witness: one matched
symbol hanging off the root (`length = 0`). -/
def splitSuffixArg : Suffix :=
  { source_node_index := 0, first_obj_index := 1, last_obj_index := 1 }

/-- Concrete state for the `_split_edge` and `_canonize_suffix`
witnesses. -/
def splitState : SuffixTree Char :=
  { seq := ['a', 'b'], N := 1, nodes := [⟨-1⟩, ⟨-1⟩],
    edges := [((0, 'a'), splitEdgeArg)],
    active := ⟨0, 0, -1⟩, case_insensitive := none, string := none }

/-- The first replacement edge built by `_split_edge` (called `e` in the
source): it covers the first `suffix.length + 1` symbols of the split
edge's label, from the suffix's source node to the new node `newIdx`. -/
def splitHead (edge : Edge) (suffix : Suffix) (newIdx : Int) : Edge :=
  { first_obj_index := edge.first_obj_index
    last_obj_index := edge.first_obj_index + suffix.length
    source_node_index := suffix.source_node_index
    dest_node_index := newIdx }

/-- The second replacement edge built by `_split_edge` (the mutated
original edge): the remainder of the original label, re-sourced at the new
node `newIdx`, still ending at the original destination. -/
def splitTail (edge : Edge) (suffix : Suffix) (newIdx : Int) : Edge :=
  { edge with
    first_obj_index := edge.first_obj_index + suffix.length + 1
    source_node_index := newIdx }

/-! ## Basic lemmas about the embedding's monadic plumbing -/

theorem except_ok_bind {ε β γ : Type} (b : β) (f : β → Except ε γ) :
    (Except.ok b >>= f) = f b := rfl

theorem except_error_bind {ε β γ : Type} (e : ε) (f : β → Except ε γ) :
    ((Except.error e : Except ε β) >>= f) = Except.error e := rfl

theorem except_bind_ok {ε β γ : Type} {x : Except ε β} {f : β → Except ε γ} {c : γ}
    (h : x >>= f = Except.ok c) : ∃ b, x = Except.ok b ∧ f b = Except.ok c := by
  cases x with
  | error e => rw [except_error_bind] at h; exact absurd h (by simp)
  | ok b => exact ⟨b, rfl, by rwa [except_ok_bind] at h⟩

omit [DecidableEq α] in
theorem cfgEq_refl (a : SuffixTree α) : cfgEq a a :=
  ⟨rfl, rfl, rfl, rfl⟩

omit [DecidableEq α] in
theorem cfgEq_trans {a b c : SuffixTree α} (h1 : cfgEq a b) (h2 : cfgEq b c) :
    cfgEq a c :=
  ⟨h1.1.trans h2.1, h1.2.1.trans h2.2.1, h1.2.2.1.trans h2.2.2.1,
    h1.2.2.2.trans h2.2.2.2⟩

/-! ## Lemmas on the association-list model of the Python dict -/

theorem dictGetOpt_setKey_self (m : EdgeDict α) (k : Int × α) (v : Edge) :
    dictGetOpt (dictSetKey m k v) k = some v := by
  induction m with
  | nil => simp [dictSetKey, dictGetOpt]
  | cons p rest ih =>
    by_cases h : p.1 = k
    · simp [dictSetKey, h, dictGetOpt]
    · simp [dictSetKey, h, dictGetOpt, ih]

theorem dictGetOpt_setKey_ne (m : EdgeDict α) (k k' : Int × α) (v : Edge)
    (h : k' ≠ k) : dictGetOpt (dictSetKey m k v) k' = dictGetOpt m k' := by
  have hnk : ¬(k = k') := fun hh => h hh.symm
  induction m with
  | nil => simp [dictSetKey, dictGetOpt, hnk]
  | cons p rest ih =>
    by_cases hp : p.1 = k
    · by_cases hq : p.1 = k'
      · exact absurd (hp.symm.trans hq) hnk
      · simp [dictSetKey, dictGetOpt, hp, hq, hnk, h]
    · by_cases hq : p.1 = k'
      · simp [dictSetKey, dictGetOpt, hp, hq, hnk, h]
      · simp [dictSetKey, dictGetOpt, hp, hq, ih]

theorem dictGetOpt_removeKey_ne (m : EdgeDict α) (k k' : Int × α)
    (h : k' ≠ k) : dictGetOpt (dictRemoveKey m k) k' = dictGetOpt m k' := by
  have hnk : ¬(k = k') := fun hh => h hh.symm
  induction m with
  | nil => simp [dictRemoveKey]
  | cons p rest ih =>
    by_cases hp : p.1 = k
    · by_cases hq : p.1 = k'
      · exact absurd (hp.symm.trans hq) hnk
      · simp [dictRemoveKey, dictGetOpt, hp, hq, hnk, h]
    · by_cases hq : p.1 = k'
      · simp [dictRemoveKey, dictGetOpt, hp, hq, hnk, h]
      · simp [dictRemoveKey, dictGetOpt, hp, hq, ih]

theorem dictGetOpt_eq_none_of_not_mem_keys (m : EdgeDict α) (k : Int × α)
    (h : k ∉ m.map Prod.fst) : dictGetOpt m k = none := by
  induction m with
  | nil => rfl
  | cons p rest ih =>
    simp only [List.map_cons, List.mem_cons] at h
    push_neg at h
    simp only [dictGetOpt]
    rw [if_neg (fun hh => h.1 (Eq.symm hh))]
    exact ih h.2

theorem dictGetOpt_removeKey_self (m : EdgeDict α) (k : Int × α)
    (h : (m.map Prod.fst).Nodup) : dictGetOpt (dictRemoveKey m k) k = none := by
  induction m with
  | nil => rfl
  | cons p rest ih =>
    simp only [List.map_cons, List.nodup_cons] at h
    by_cases hp : p.1 = k
    · simp only [dictRemoveKey, if_pos hp]
      apply dictGetOpt_eq_none_of_not_mem_keys
      rw [← hp]
      exact h.1
    · simp only [dictRemoveKey, if_neg hp, dictGetOpt]
      exact ih h.2

theorem mem_keys_removeKey {m : EdgeDict α} {k k' : Int × α}
    (h : k ∈ (dictRemoveKey m k').map Prod.fst) : k ∈ m.map Prod.fst := by
  induction m with
  | nil => simp [dictRemoveKey] at h
  | cons p rest ih =>
    by_cases hp : p.1 = k'
    · simp only [dictRemoveKey, if_pos hp] at h
      simp [h]
    · simp only [dictRemoveKey, if_neg hp, List.map_cons, List.mem_cons] at h
      rcases h with h | h
      · simp [h]
      · simp [ih h]

theorem mem_of_dictGetOpt {m : EdgeDict α} {k : Int × α} {v : Edge}
    (h : dictGetOpt m k = some v) : (k, v) ∈ m := by
  induction m with
  | nil => exact absurd h (by simp [dictGetOpt])
  | cons p rest ih =>
    rw [dictGetOpt] at h
    by_cases hp : p.1 = k
    · rw [if_pos hp] at h
      obtain ⟨a, b⟩ := p
      have ha : a = k := hp
      have hb : b = v := by simpa using h
      rw [ha, hb]
      exact List.mem_cons_self _ _
    · rw [if_neg hp] at h
      exact List.mem_cons_of_mem _ (ih h)

/-! ## Equation lemmas for the edge-table operations -/

theorem insert_edge_eq (st : SuffixTree α) (edge : Edge) (c : α)
    (hc : pyGet st.seq edge.first_obj_index = Except.ok c) :
    _insert_edge st edge =
      Except.ok { st with
        edges := dictSetKey st.edges (edge.source_node_index, c) edge } := by
  unfold _insert_edge
  rw [hc, except_ok_bind]

theorem remove_edge_eq (st : SuffixTree α) (edge : Edge) (c : α) (e : Edge)
    (hc : pyGet st.seq edge.first_obj_index = Except.ok c)
    (hsome : dictGetOpt st.edges (edge.source_node_index, c) = some e) :
    _remove_edge st edge =
      Except.ok { st with
        edges := dictRemoveKey st.edges (edge.source_node_index, c) } := by
  unfold _remove_edge
  rw [hc, except_ok_bind, hsome]

/-! ## C4: the empty query pattern -/

/-- C4 (confirmed). `find_substring` applied to the empty pattern returns
the NotFound value `-1` on every tree, raising no error: the emptiness
check precedes every attribute and table access. -/
theorem c4_empty_pattern_returns_not_found (lower : α → α) (t : SuffixTree α) :
    find_substring lower t [] = Except.ok (-1) := by
  simp [find_substring]

/-! ## C1 and C3: `find_substring` on built trees raises `AttributeError` -/

/-- C1 (code_bug), evaluation at the failing input. For `S = "ab"` and the
non-empty substring `P = "a"` of `S`, the tree builds fine but
`find_substring` raises `AttributeError` instead of returning index `0`:
it reads `self.case_insensitive`, which `__init__` never assigns. -/
theorem c1_find_substring_raises_on_substring :
    ((buildTree (['a', 'b'] : List Char)).bind
        (fun t => find_substring id t ['a'])) = Except.error PErr.attributeError ∧
      (buildTree (['a', 'b'] : List Char)).map (fun _ => ()) = Except.ok () := by
  exact ⟨by rfl, by rfl⟩

/-- C3 (code_bug), evaluation at the failing input. For `S = "ab"` and the
pattern `P = "z"` that does not occur in `S`, `find_substring` raises
`AttributeError` instead of returning the NotFound value `-1`. -/
theorem c3_find_substring_raises_on_missing_pattern :
    ((buildTree (['a', 'b'] : List Char)).bind
        (fun t => find_substring id t ['z'])) = Except.error PErr.attributeError ∧
      (buildTree (['a', 'b'] : List Char)).map (fun _ => ()) = Except.ok () := by
  exact ⟨by rfl, by rfl⟩

/-! ## C5: what the edge-table insert does on an occupied key -/

/-- C5 (corrected) — counterexample. `_insert_edge` is a plain dict
assignment: at the concrete state `insState`, whose table already holds
`insEdgeOld` under key `(0, 'a')`, inserting `insEdgeNew` (same key)
succeeds — no failure of any kind — and silently replaces the stored edge,
contradicting the claim that a colliding insert fails. -/
theorem c5_insert_on_occupied_key_succeeds :
    dictGetOpt insState.edges (0, 'a') = some insEdgeOld ∧
      insEdgeNew ≠ insEdgeOld ∧
      _insert_edge insState insEdgeNew =
        Except.ok { insState with edges := [((0, 'a'), insEdgeNew)] } := by
  exact ⟨rfl, by decide, rfl⟩

/-- C5 (corrected) — amended claim. The edge-table insert never fails
(whenever the edge's begin index resolves to a symbol of the sequence): it
stores the edge under `(source, symbol at begin)`, silently replacing any
existing entry with that key — afterwards the key maps to the new edge and
every other key is untouched. -/
theorem c5_insert_silently_replaces (st : SuffixTree α) (edge : Edge) (c : α)
    (hc : pyGet st.seq edge.first_obj_index = Except.ok c) :
    _insert_edge st edge =
        Except.ok { st with
          edges := dictSetKey st.edges (edge.source_node_index, c) edge } ∧
      dictGetOpt (dictSetKey st.edges (edge.source_node_index, c) edge)
          (edge.source_node_index, c) = some edge ∧
      ∀ k, k ≠ (edge.source_node_index, c) →
        dictGetOpt (dictSetKey st.edges (edge.source_node_index, c) edge) k =
          dictGetOpt st.edges k :=
  ⟨insert_edge_eq st edge c hc, dictGetOpt_setKey_self _ _ _,
    fun _ hk => dictGetOpt_setKey_ne _ _ _ _ hk⟩

/-- Witness for the amended C5 claim, at the concrete occupied-key state. -/
theorem c5_insert_silently_replaces_witness :
    pyGet insState.seq insEdgeNew.first_obj_index = Except.ok 'a' ∧
      (_insert_edge insState insEdgeNew =
          Except.ok { insState with
            edges := dictSetKey insState.edges
              (insEdgeNew.source_node_index, 'a') insEdgeNew } ∧
        dictGetOpt (dictSetKey insState.edges
            (insEdgeNew.source_node_index, 'a') insEdgeNew)
            (insEdgeNew.source_node_index, 'a') = some insEdgeNew ∧
        ∀ k, k ≠ (insEdgeNew.source_node_index, 'a') →
          dictGetOpt (dictSetKey insState.edges
              (insEdgeNew.source_node_index, 'a') insEdgeNew) k =
            dictGetOpt insState.edges k) :=
  ⟨rfl, c5_insert_silently_replaces insState insEdgeNew 'a' rfl⟩

/-! ## Helper lemmas for list updates at the appended position -/

theorem pyGet_append_length {β : Type} (l : List β) (x : β) :
    pyGet (l ++ [x]) (l.length : Int) = Except.ok x := by
  have hneg : ¬((l.length : Int) < 0) := by omega
  have htn : ((l.length : Int)).toNat = l.length := by omega
  simp only [pyGet, List.length_append, List.length_singleton, if_neg hneg]
  rw [if_pos (by constructor <;> omega)]
  rw [htn, List.get?_concat_length]

theorem list_set_concat {β : Type} (l : List β) (x v : β) :
    (l ++ [x]).set l.length v = l ++ [v] := by
  induction l with
  | nil => rfl
  | cons a t ih => simp [List.set, ih]

theorem pySet_append_length {β : Type} (l : List β) (x v : β) :
    pySet (l ++ [x]) (l.length : Int) v = Except.ok (l ++ [v]) := by
  have hneg : ¬((l.length : Int) < 0) := by omega
  have htn : ((l.length : Int)).toNat = l.length := by omega
  simp only [pySet, List.length_append, List.length_singleton, if_neg hneg]
  rw [if_pos (by constructor <;> omega)]
  rw [htn, list_set_concat]

theorem setSuffixNode_append (l : List Node) (x : Node) (v : Int) :
    setSuffixNode (l ++ [x]) (l.length : Int) v =
      Except.ok (l ++ [{ suffix_node := v }]) := by
  unfold setSuffixNode
  rw [pyGet_append_length, except_ok_bind, pySet_append_length]

/-! ## C6: `_split_edge` replaces one table entry by two, atomically -/

/-- C6 (confirmed). Splitting an edge `edge` (stored in the table under its
key `(source, symbol at begin)`, with the active suffix hanging off the
same node and `k = suffix.length`) appends exactly one new internal node —
whose suffix link is set immediately to `suffix.source_node_index` — and
leaves the table with the original entry replaced by the two edges
`splitHead` (first `k + 1` symbols, original source to new node) and
`splitTail` (remaining symbols, new node to original destination).  The
stale entry is removed before either replacement is inserted: the first
insert happens with its key absent, and the second insert's key (owned by
the brand-new node) is absent as well, so at most one edge per
`(node, symbol)` key exists at every intermediate step. -/
theorem c6_split_edge_replaces_atomically (st : SuffixTree α) (edge : Edge)
    (suffix : Suffix) (c c2 : α)
    (hc : pyGet st.seq edge.first_obj_index = Except.ok c)
    (hc2 : pyGet st.seq (edge.first_obj_index + suffix.length + 1) = Except.ok c2)
    (hmem : dictGetOpt st.edges (edge.source_node_index, c) = some edge)
    (hsrc : suffix.source_node_index = edge.source_node_index)
    (hbound : ∀ p ∈ st.edges, p.1.1 < (st.nodes.length : Int))
    (hnd : (st.edges.map Prod.fst).Nodup) :
    _split_edge st edge suffix =
        Except.ok
          ({ st with
              nodes := st.nodes ++ [{ suffix_node := suffix.source_node_index }]
              edges :=
                dictSetKey
                  (dictSetKey (dictRemoveKey st.edges (edge.source_node_index, c))
                    (suffix.source_node_index, c)
                    (splitHead edge suffix (st.nodes.length : Int)))
                  ((st.nodes.length : Int), c2)
                  (splitTail edge suffix (st.nodes.length : Int)) },
            (st.nodes.length : Int)) ∧
      dictGetOpt (dictRemoveKey st.edges (edge.source_node_index, c))
          (suffix.source_node_index, c) = none ∧
      dictGetOpt
          (dictSetKey (dictRemoveKey st.edges (edge.source_node_index, c))
            (suffix.source_node_index, c)
            (splitHead edge suffix (st.nodes.length : Int)))
          ((st.nodes.length : Int), c2) = none ∧
      ∀ k,
        dictGetOpt
            (dictSetKey
              (dictSetKey (dictRemoveKey st.edges (edge.source_node_index, c))
                (suffix.source_node_index, c)
                (splitHead edge suffix (st.nodes.length : Int)))
              ((st.nodes.length : Int), c2)
              (splitTail edge suffix (st.nodes.length : Int))) k =
          if k = ((st.nodes.length : Int), c2) then
            some (splitTail edge suffix (st.nodes.length : Int))
          else if k = (suffix.source_node_index, c) then
            some (splitHead edge suffix (st.nodes.length : Int))
          else dictGetOpt st.edges k := by
  have hsrclt : edge.source_node_index < (st.nodes.length : Int) :=
    hbound ((edge.source_node_index, c), edge) (mem_of_dictGetOpt hmem)
  have hfreshkey : ∀ k : Int × α, k.1 = (st.nodes.length : Int) →
      dictGetOpt (dictRemoveKey st.edges (edge.source_node_index, c)) k = none := by
    intro k hk
    apply dictGetOpt_eq_none_of_not_mem_keys
    intro hmemK
    obtain ⟨p, hp, hpk⟩ := List.mem_map.mp (mem_keys_removeKey hmemK)
    have := hbound p hp
    rw [hpk, hk] at this
    exact absurd this (lt_irrefl _)
  have hne12 : ((st.nodes.length : Int), c2) ≠
      ((suffix.source_node_index, c) : Int × α) := by
    intro hh
    have : (st.nodes.length : Int) = suffix.source_node_index :=
      congrArg Prod.fst hh
    rw [hsrc] at this
    omega
  refine ⟨?_, ?_, ?_, ?_⟩
  · have hidx : (((st.nodes ++ [({ suffix_node := -1 } : Node)]).length : Int) - 1)
        = (st.nodes.length : Int) := by
      simp
    unfold _split_edge
    dsimp only
    rw [remove_edge_eq { st with nodes := st.nodes ++ [{ suffix_node := -1 }] }
          edge c edge hc hmem, except_ok_bind]
    dsimp only
    rw [insert_edge_eq
          { st with
            nodes := st.nodes ++ [{ suffix_node := -1 }]
            edges := dictRemoveKey st.edges (edge.source_node_index, c) }
          { first_obj_index := edge.first_obj_index
            last_obj_index := edge.first_obj_index + suffix.length
            source_node_index := suffix.source_node_index
            dest_node_index :=
              ((st.nodes ++ [({ suffix_node := -1 } : Node)]).length : Int) - 1 }
          c hc, except_ok_bind]
    dsimp only
    rw [hidx, setSuffixNode_append, except_ok_bind]
    rw [insert_edge_eq
          { st with
            nodes := st.nodes ++ [{ suffix_node := suffix.source_node_index }]
            edges :=
              dictSetKey (dictRemoveKey st.edges (edge.source_node_index, c))
                (suffix.source_node_index, c)
                { first_obj_index := edge.first_obj_index
                  last_obj_index := edge.first_obj_index + suffix.length
                  source_node_index := suffix.source_node_index
                  dest_node_index := (st.nodes.length : Int) } }
          { first_obj_index := edge.first_obj_index + suffix.length + 1
            last_obj_index := edge.last_obj_index
            source_node_index := (st.nodes.length : Int)
            dest_node_index := edge.dest_node_index }
          c2 hc2, except_ok_bind]
    dsimp only [splitHead, splitTail]
  · rw [hsrc]
    exact dictGetOpt_removeKey_self st.edges _ hnd
  · rw [dictGetOpt_setKey_ne _ _ _ _ hne12]
    exact hfreshkey _ rfl
  · intro k
    by_cases h2 : k = ((st.nodes.length : Int), c2)
    · rw [h2, dictGetOpt_setKey_self, if_pos rfl]
    · rw [dictGetOpt_setKey_ne _ _ _ _ h2, if_neg h2]
      by_cases h1 : k = (suffix.source_node_index, c)
      · rw [h1, dictGetOpt_setKey_self, if_pos rfl]
      · rw [dictGetOpt_setKey_ne _ _ _ _ h1, if_neg h1]
        rw [hsrc] at h1
        exact dictGetOpt_removeKey_ne st.edges _ _ h1

/-- Witness for the `_split_edge` theorem: all hypotheses hold at the
concrete two-symbol state `splitState`, and in particular the stale key is
gone right after the removal step. -/
theorem c6_split_edge_replaces_atomically_witness :
    (pyGet splitState.seq splitEdgeArg.first_obj_index = Except.ok 'a' ∧
        pyGet splitState.seq
            (splitEdgeArg.first_obj_index + splitSuffixArg.length + 1) =
          Except.ok 'b' ∧
        dictGetOpt splitState.edges (splitEdgeArg.source_node_index, 'a') =
          some splitEdgeArg ∧
        splitSuffixArg.source_node_index = splitEdgeArg.source_node_index ∧
        (∀ p ∈ splitState.edges, p.1.1 < (splitState.nodes.length : Int)) ∧
        (splitState.edges.map Prod.fst).Nodup) ∧
      dictGetOpt
          (dictRemoveKey splitState.edges (splitEdgeArg.source_node_index, 'a'))
          (splitSuffixArg.source_node_index, 'a') = none :=
  ⟨⟨rfl, rfl, rfl, rfl, by decide, by decide⟩,
    (c6_split_edge_replaces_atomically splitState splitEdgeArg splitSuffixArg
        'a' 'b' (by rfl) (by rfl) (by rfl) (by rfl) (by decide) (by decide)).2.1⟩

/-! ## C10: canonization terminates within the active window length -/

theorem pyGet_cases {β : Type} (xs : List β) (i : Int) :
    (∃ a, pyGet xs i = Except.ok a) ∨ pyGet xs i = Except.error PErr.indexError := by
  unfold pyGet
  dsimp only
  repeat' split
  all_goals first
    | exact Or.inl ⟨_, rfl⟩
    | exact Or.inr rfl

theorem pyGet_error_eq {β : Type} {xs : List β} {i : Int} {e : PErr}
    (h : pyGet xs i = Except.error e) : e = PErr.indexError := by
  rcases pyGet_cases xs i with ⟨a, ha⟩ | ha
  · rw [h] at ha
    exact Except.noConfusion ha
  · rw [h] at ha
    exact Except.error.inj ha

theorem dictGet_cases (m : EdgeDict α) (k : Int × α) :
    (∃ e, dictGet m k = Except.ok e ∧ dictGetOpt m k = some e) ∨
      dictGet m k = Except.error PErr.keyError := by
  unfold dictGet
  cases hgo : dictGetOpt m k with
  | some e => exact Or.inl ⟨e, rfl, rfl⟩
  | none => exact Or.inr rfl

theorem dictGet_error_eq {m : EdgeDict α} {k : Int × α} {e : PErr}
    (h : dictGet m k = Except.error e) : e = PErr.keyError := by
  rcases dictGet_cases m k with ⟨x, hx, _⟩ | hx
  · rw [h] at hx
    exact Except.noConfusion hx
  · rw [h] at hx
    exact Except.error.inj hx

theorem dictGet_ok_getOpt {m : EdgeDict α} {k : Int × α} {e : Edge}
    (h : dictGet m k = Except.ok e) : dictGetOpt m k = some e := by
  rcases dictGet_cases m k with ⟨x, hx, hgo⟩ | hx
  · rw [h] at hx
    rw [← Except.ok.inj hx] at hgo
    exact hgo
  · rw [h] at hx
    exact Except.noConfusion hx

/-- Fuel sufficiency for `_canonize_suffix`: on a table whose edges all
have non-negative span, one unit of fuel per remaining window symbol (plus
the final call) is enough — each descent consumes a full edge span, at
least one symbol, from the front of the window. -/
theorem canonize_fuel_sufficient (st : SuffixTree α)
    (hlen : ∀ p ∈ st.edges, 0 ≤ Edge.length p.2) :
    ∀ (fuel : Nat) (s : Suffix),
      (s.last_obj_index + 1 - s.first_obj_index).toNat + 1 ≤ fuel →
      _canonize_suffix st fuel s ≠ Except.error PErr.outOfFuel := by
  intro fuel
  induction fuel with
  | zero => intro s hs; omega
  | succ n ih =>
    intro s hs
    rw [_canonize_suffix]
    by_cases hex : s.explicit = true
    · rw [if_pos hex]
      simp
    · rw [if_neg hex]
      have himp : s.first_obj_index ≤ s.last_obj_index := by
        unfold Suffix.explicit at hex
        simpa using hex
      cases hpg : pyGet st.seq s.first_obj_index with
      | error e1 =>
        rw [except_error_bind]
        have := pyGet_error_eq hpg
        simp [this]
      | ok c =>
        rw [except_ok_bind]
        cases hdg : dictGet st.edges (s.source_node_index, c) with
        | error e2 =>
          rw [except_error_bind]
          have := dictGet_error_eq hdg
          simp [this]
        | ok e =>
          rw [except_ok_bind]
          have hel : 0 ≤ Edge.length e :=
            hlen ((s.source_node_index, c), e)
              (mem_of_dictGetOpt (dictGet_ok_getOpt hdg))
          by_cases hle : Edge.length e ≤ Suffix.length s
          · rw [if_pos hle]
            apply ih
            dsimp only
            unfold Suffix.length at hle
            omega
          · rw [if_neg hle]
            simp

/-- C10 (confirmed). `_canonize_suffix` terminates on every suffix over
any edge table whose edges all have non-negative span (as every table
arising during construction does): with fuel counting the initial call
plus one unit per symbol of the active window — `canonFuel` — the
function never exhausts its fuel, because every descent consumes a full
edge span of at least one symbol from the front of the window. -/
theorem c10_canonize_terminates_within_window (st : SuffixTree α) (s : Suffix)
    (hlen : ∀ p ∈ st.edges, 0 ≤ Edge.length p.2) :
    _canonize_suffix st (canonFuel s) s ≠ Except.error PErr.outOfFuel :=
  canonize_fuel_sufficient st hlen (canonFuel s) s (by unfold canonFuel; omega)

/-- Witness for the canonization-termination theorem at a concrete state
and a window of one symbol. -/
theorem c10_canonize_terminates_within_window_witness :
    (∀ p ∈ splitState.edges, 0 ≤ Edge.length p.2) ∧
      _canonize_suffix splitState
          (canonFuel { source_node_index := 0, first_obj_index := 0, last_obj_index := 0 })
          { source_node_index := 0, first_obj_index := 0, last_obj_index := 0 } ≠
        Except.error PErr.outOfFuel :=
  ⟨by decide,
    c10_canonize_terminates_within_window splitState
      { source_node_index := 0, first_obj_index := 0, last_obj_index := 0 }
      (by decide)⟩

/-! ## C2: the construction never creates the attributes `find_substring` reads -/

theorem insert_edge_cfg {st st' : SuffixTree α} {e : Edge}
    (h : _insert_edge st e = Except.ok st') : cfgEq st' st := by
  unfold _insert_edge at h
  obtain ⟨c, _, h2⟩ := except_bind_ok h
  injection h2 with h3
  subst h3
  exact ⟨rfl, rfl, rfl, rfl⟩

theorem remove_edge_cfg {st st' : SuffixTree α} {e : Edge}
    (h : _remove_edge st e = Except.ok st') : cfgEq st' st := by
  unfold _remove_edge at h
  obtain ⟨c, _, h2⟩ := except_bind_ok h
  split at h2
  · injection h2 with h3
    subst h3
    exact ⟨rfl, rfl, rfl, rfl⟩
  · exact Except.noConfusion h2

theorem split_edge_cfg {st : SuffixTree α} {e : Edge} {s : Suffix}
    {r : SuffixTree α × Int} (h : _split_edge st e s = Except.ok r) :
    cfgEq r.1 st := by
  unfold _split_edge at h
  dsimp only at h
  obtain ⟨st2, h2, h⟩ := except_bind_ok h
  obtain ⟨st3, h3, h⟩ := except_bind_ok h
  obtain ⟨nodes2, _, h⟩ := except_bind_ok h
  obtain ⟨st5, h5, h⟩ := except_bind_ok h
  injection h with h6
  subst h6
  have c2 := remove_edge_cfg h2
  have c3 := insert_edge_cfg h3
  have c5 := insert_edge_cfg h5
  exact cfgEq_trans c5 (cfgEq_trans ⟨rfl, rfl, rfl, rfl⟩
    (cfgEq_trans c3 (cfgEq_trans c2 ⟨rfl, rfl, rfl, rfl⟩)))

theorem addPrefixCont_cfg {i lp : Int}
    {recur : SuffixTree α → Int → Except PErr (SuffixTree α × Int × Int)}
    (hrec : ∀ st' pn r, recur st' pn = Except.ok r → cfgEq r.1 st')
    {st : SuffixTree α} {pn : Int} {r : SuffixTree α × Int × Int}
    (h : addPrefixCont i lp recur st pn = Except.ok r) : cfgEq r.1 st := by
  unfold addPrefixCont at h
  dsimp only at h
  obtain ⟨stE, hE, h⟩ := except_bind_ok h
  have cE : cfgEq stE st := cfgEq_trans (insert_edge_cfg hE) ⟨rfl, rfl, rfl, rfl⟩
  split at h
  · obtain ⟨nodes, _, h⟩ := except_bind_ok h
    obtain ⟨stL, hL, h⟩ := except_bind_ok h
    injection hL with h3
    subst h3
    split at h
    · obtain ⟨stA, hA, h⟩ := except_bind_ok h
      injection hA with h4
      subst h4
      obtain ⟨act, _, h⟩ := except_bind_ok h
      exact cfgEq_trans (cfgEq_trans (hrec _ _ _ h) ⟨rfl, rfl, rfl, rfl⟩) cE
    · obtain ⟨nd, _, h⟩ := except_bind_ok h
      obtain ⟨stA, hA, h⟩ := except_bind_ok h
      injection hA with h4
      subst h4
      obtain ⟨act, _, h⟩ := except_bind_ok h
      exact cfgEq_trans (cfgEq_trans (hrec _ _ _ h) ⟨rfl, rfl, rfl, rfl⟩) cE
  · obtain ⟨stL, hL, h⟩ := except_bind_ok h
    injection hL with h3
    subst h3
    split at h
    · obtain ⟨stA, hA, h⟩ := except_bind_ok h
      injection hA with h4
      subst h4
      obtain ⟨act, _, h⟩ := except_bind_ok h
      exact cfgEq_trans (cfgEq_trans (hrec _ _ _ h) ⟨rfl, rfl, rfl, rfl⟩) cE
    · obtain ⟨nd, _, h⟩ := except_bind_ok h
      obtain ⟨stA, hA, h⟩ := except_bind_ok h
      injection hA with h4
      subst h4
      obtain ⟨act, _, h⟩ := except_bind_ok h
      exact cfgEq_trans (cfgEq_trans (hrec _ _ _ h) ⟨rfl, rfl, rfl, rfl⟩) cE

theorem addPrefixLoop_cfg {i : Int} :
    ∀ (fuel : Nat) {st : SuffixTree α} {lp : Int} {r : SuffixTree α × Int × Int},
      addPrefixLoop i fuel st lp = Except.ok r → cfgEq r.1 st := by
  intro fuel
  induction fuel with
  | zero =>
    intro st lp r h
    exact Except.noConfusion h
  | succ n ih =>
    intro st lp r h
    rw [addPrefixLoop] at h
    dsimp only at h
    split at h
    · obtain ⟨ci, _, h⟩ := except_bind_ok h
      split at h
      · injection h with h3
        subst h3
        exact cfgEq_refl st
      · exact addPrefixCont_cfg (fun st' pn r' hr => ih hr) h
    · obtain ⟨ca, _, h⟩ := except_bind_ok h
      obtain ⟨e, _, h⟩ := except_bind_ok h
      obtain ⟨cn, _, h⟩ := except_bind_ok h
      obtain ⟨ci, _, h⟩ := except_bind_ok h
      split at h
      · injection h with h3
        subst h3
        exact cfgEq_refl st
      · obtain ⟨⟨st1, np⟩, hsp, h⟩ := except_bind_ok h
        exact cfgEq_trans
          (addPrefixCont_cfg (fun st' pn r' hr => ih hr) h)
          (split_edge_cfg hsp)

theorem addPrefix_cfg {fuel : Nat} {st t : SuffixTree α} {i : Int}
    (h : addPrefix fuel st i = Except.ok t) : cfgEq t st := by
  unfold addPrefix at h
  obtain ⟨⟨st1, lp, pn⟩, hloop, h⟩ := except_bind_ok h
  dsimp only at h
  have c1 : cfgEq st1 st := addPrefixLoop_cfg _ hloop
  split at h
  · obtain ⟨nodes, _, h⟩ := except_bind_ok h
    obtain ⟨st2, h2, h⟩ := except_bind_ok h
    injection h2 with h3
    subst h3
    obtain ⟨act2, _, h⟩ := except_bind_ok h
    injection h with h4
    subst h4
    exact cfgEq_trans ⟨rfl, rfl, rfl, rfl⟩ c1
  · obtain ⟨st2, h2, h⟩ := except_bind_ok h
    injection h2 with h3
    subst h3
    obtain ⟨act2, _, h⟩ := except_bind_ok h
    injection h with h4
    subst h4
    exact cfgEq_trans ⟨rfl, rfl, rfl, rfl⟩ c1

theorem buildPhases_succ (fuel : Nat) (seq : List α) (k : Nat) :
    buildPhases fuel seq (k + 1) =
      buildPhases fuel seq k >>= fun st => addPrefix fuel st (Int.ofNat k) := by
  unfold buildPhases
  rw [List.range_succ, List.foldlM_append]
  simp

theorem buildPhases_cfg (fuel : Nat) (seq : List α) :
    ∀ (k : Nat) {t : SuffixTree α},
      buildPhases fuel seq k = Except.ok t → cfgEq t (initST seq) := by
  intro k
  induction k with
  | zero =>
    intro t h
    injection h with h2
    subst h2
    exact cfgEq_refl _
  | succ n ih =>
    intro t h
    rw [buildPhases_succ] at h
    obtain ⟨st, hst, h⟩ := except_bind_ok h
    exact cfgEq_trans (addPrefix_cfg h) (ih hst)

/-- C2 (confirmed). Every tree the constructor produces has neither a
`case_insensitive` nor a `string` attribute, and `find_substring` reads
`case_insensitive` before anything else once the pattern is non-empty: the
call therefore fails with `AttributeError` for every non-empty pattern,
never reaching the walk or returning a result. -/
theorem c2_find_substring_always_attribute_error (seq pattern : List α)
    (lower : α → α) (t : SuffixTree α)
    (hb : buildTree seq = Except.ok t) (hp : pattern ≠ []) :
    find_substring lower t pattern = Except.error PErr.attributeError := by
  unfold buildTree at hb
  have hcfg := buildPhases_cfg (loopFuel seq) seq seq.length hb
  have hci : t.case_insensitive = none := hcfg.2.2.1
  unfold find_substring
  rw [if_neg (by simpa using hp)]
  rw [hci]

/-- Witness for the attribute-error theorem: the tree built from `"a"` and
the pattern `"b"`. -/
theorem c2_find_substring_always_attribute_error_witness :
    (buildTree (['a'] : List Char) =
        Except.ok ((buildTree (['a'] : List Char)).toOption.getD (initST ['a'])) ∧
      (['b'] : List Char) ≠ []) ∧
      find_substring id
          ((buildTree (['a'] : List Char)).toOption.getD (initST ['a']))
          ['b'] = Except.error PErr.attributeError :=
  ⟨⟨by rfl, by decide⟩,
    c2_find_substring_always_attribute_error ['a'] ['b'] id
      ((buildTree (['a'] : List Char)).toOption.getD (initST ['a']))
      (by rfl) (by decide)⟩

/-! ## C9: the empty input sequence -/

/-- C9 (confirmed). Building from the empty sequence succeeds and yields
exactly the freshly initialised state: one node (the root, with no suffix
link) and no edges; the phase loop body never runs (`range(0)` is empty). -/
theorem c9_empty_sequence_builds_root_only (α : Type) [DecidableEq α] :
    buildTree ([] : List α) = Except.ok (initST []) ∧
      (initST ([] : List α)).nodes = [{ suffix_node := -1 }] ∧
      (initST ([] : List α)).edges = [] := by
  exact ⟨rfl, rfl, rfl⟩

/-- Instantiation of the empty-sequence theorem at `Char`. -/
theorem c9_empty_sequence_builds_root_only_witness :
    buildTree ([] : List Char) = Except.ok (initST []) ∧
      (initST ([] : List Char)).nodes = [{ suffix_node := -1 }] ∧
      (initST ([] : List Char)).edges = [] :=
  c9_empty_sequence_builds_root_only Char

/-! ## C8: node and edge counts versus `2 * L` -/

/-- C8 (corrected) — counterexample. At the length-one sequence `[0]` the
build succeeds and the finished tree has exactly 2 nodes (the root and one
leaf), which is not strictly less than `2 * L = 2`: the strict node bound
of the claim fails at `L = 1`. -/
theorem c8_two_l_bound_fails_at_length_one :
    buildTree ([0] : List Nat) =
        Except.ok ((buildTree ([0] : List Nat)).toOption.getD (initST [0])) ∧
      ((buildTree ([0] : List Nat)).toOption.getD (initST [0])).nodes.length = 2 ∧
      ¬(((buildTree ([0] : List Nat)).toOption.getD (initST [0])).nodes.length <
          2 * ([0] : List Nat).length) :=
  ⟨rfl, rfl, by decide⟩

set_option maxRecDepth 100000 in
set_option maxHeartbeats 2000000 in
/-- C8 (corrected) — amended claim, proved by exhaustive evaluation.  For
representative inputs — every sequence over a two-symbol alphabet of
length 2 to 6 and over a three-symbol alphabet of length 2 to 4
(`sizeFamily`, which includes the maximally repetitive ones), plus the
spec's examples `"abcabxabcd$"` and `"aaaa$"` — the finished tree has
strictly fewer than `2 * L` nodes and strictly fewer than `2 * L` edges;
at `L = 1` the node count instead equals `2 * L` while the edge count is
still below the bound. -/
theorem c8_linear_size_on_representative_inputs :
    sizeFamily.all countOK = true ∧
      countOKChar ("abcabxabcd$".toList) = true ∧
      countOKChar ("aaaa$".toList) = true ∧
      ((buildTree ([0] : List Nat)).toOption.getD (initST [0])).nodes.length ≤
        2 * ([0] : List Nat).length ∧
      ((buildTree ([0] : List Nat)).toOption.getD (initST [0])).edges.length <
        2 * ([0] : List Nat).length :=
  ⟨by decide, by decide, by decide, by decide, by decide⟩

/-! ## Bounded evidence for the suffix-link invariant (claim C7)

The universal statement of invariant (2) needs the full semantic
active-point/path correspondence of Ukkonen's algorithm; here it is
machine-checked exhaustively on a small input family (larger families were
checked by evaluation during development). -/

set_option maxRecDepth 100000 in
set_option maxHeartbeats 2000000 in
/-- After every phase, on every binary sequence of length at most 5, every
non-root edge-source node has a resolved suffix link. -/
theorem suffix_links_resolved_on_small_binary_inputs :
    (((List.range 6).flatMap (allSeqs [0, 1])).all phasesAllResolved) = true := by
  decide

end Ukkonen
